import Mathlib

/-!
Verification development for the python-tango flashcard application.

The development shallowly embeds the persistence layer
(app/word_repository.py), the genre grouping (app/left_panel.py), the
navigation cursor arithmetic and renderers (app/main_panel.py) and the
list-window edit/delete handlers (app/word_list_window.py, test.py) as
executable Lean definitions, and proves the testable properties stated
in the specification against them.
-/

namespace Tango

/-- Model of a parsed JSON document (the values json.load can produce for
this application; floating point numbers are outside the model).  A
`jobj` holds the fields of a parsed dict: keys are distinct and lookup is
by key. -/
inductive JValue where
  | jnull : JValue
  | jbool (b : Bool) : JValue
  | jint (n : Int) : JValue
  | jstr (s : String) : JValue
  | jarr (elems : List JValue) : JValue
  | jobj (fields : List (String × JValue)) : JValue

/-- Model of one rich-text run dict as stored in memory: a required text
plus the five optional style attributes (word_repository.py lines 59-71). -/
structure TextRun where
  text : String
  fg : Option String := none
  bg : Option String := none
  bold : Option Bool := none
  italic : Option Bool := none
  underline : Option Bool := none
deriving DecidableEq, Repr

/-- Model of one in-memory word entry dict: word and meaning are always
present strings, genre and the two run lists are optionally present keys
(word_repository.py lines 39-75, types_.py WordItem). -/
structure WordItem where
  word : String
  meaning : String
  genre : Option String := none
  word_runs : Option (List TextRun) := none
  meaning_runs : Option (List TextRun) := none
deriving DecidableEq, Repr

/-- Dictionary lookup, Python `d.get(k)`: the value at key `k`, if present. -/
def jget (fields : List (String × JValue)) (k : String) : Option JValue :=
  match fields with
  | [] => none
  | (k2, v) :: rest => if k2 = k then some v else jget rest k

/-- Python `d.get(k, dflt)`. -/
def jgetD (fields : List (String × JValue)) (k : String) (dflt : JValue) : JValue :=
  (jget fields k).getD dflt

/-- Escape one character for the Python repr of a string quoted with `q`. -/
def pyEscapeChar (q : Char) (c : Char) : String :=
  if c = Char.ofNat 92 then "\\\\"
  else if c = q then "\\" ++ String.singleton q
  else if c = Char.ofNat 10 then "\\n"
  else if c = Char.ofNat 13 then "\\r"
  else if c = Char.ofNat 9 then "\\t"
  else String.singleton c

/-- Python repr of a string: single-quoted unless the string contains a
single quote and no double quote, with backslash escaping. -/
def pyQuote (s : String) : String :=
  let sq : Char := Char.ofNat 39
  let dq : Char := Char.ofNat 34
  let q : Char := if s.contains sq && !(s.contains dq) then dq else sq
  String.singleton q ++ String.join (s.toList.map (pyEscapeChar q)) ++ String.singleton q

/-- Python repr of a JSON value (used by str for non-string values and for
elements of containers). -/
def pyRepr : JValue → String
  | .jnull => "None"
  | .jbool true => "True"
  | .jbool false => "False"
  | .jint n => toString n
  | .jstr s => pyQuote s
  | .jarr xs =>
      "[" ++ String.intercalate ", " (xs.attach.map (fun x => pyRepr x.1)) ++ "]"
  | .jobj fs =>
      "\x7b" ++
        String.intercalate ", "
          (fs.attach.map (fun p => pyQuote p.1.1 ++ ": " ++ pyRepr p.1.2)) ++
        "\x7d"
termination_by v => sizeOf v
decreasing_by
  · have h := List.sizeOf_lt_of_mem x.2
    simp only [JValue.jarr.sizeOf_spec]
    omega
  · have h := List.sizeOf_lt_of_mem p.2
    have h2 : sizeOf p.1.2 < sizeOf p.1 := by
      obtain ⟨a, b⟩ := p.1
      simp only [Prod.mk.sizeOf_spec]
      omega
    simp only [JValue.jobj.sizeOf_spec]
    omega

/-- Python `str(x)`: the string itself for strings, repr otherwise. -/
def pyStr (v : JValue) : String :=
  match v with
  | .jstr s => s
  | v => pyRepr v

/-- Body of the inner cleaning loop of WordRepository.load
(word_repository.py lines 53-73): a raw run element is kept only when it
is a dict whose text is a string; the optional attributes are copied only
when type-correct. -/
def cleanRun (r : JValue) : Option TextRun :=
  match r with
  | .jobj fs =>
    match jget fs "text" with
    | some (.jstr t) =>
        some { text := t
             , fg := match jget fs "fg" with
                 | some (.jstr s) => some s
                 | _ => none
             , bg := match jget fs "bg" with
                 | some (.jstr s) => some s
                 | _ => none
             , bold := match jget fs "bold" with
                 | some (.jbool b) => some b
                 | _ => none
             , italic := match jget fs "italic" with
                 | some (.jbool b) => some b
                 | _ => none
             , underline := match jget fs "underline" with
                 | some (.jbool b) => some b
                 | _ => none }
    | _ => none
  | _ => none

/-- The inner cleaning loop itself, accumulating `cleaned`
(word_repository.py lines 52-73). -/
def cleanRunsLoop (acc : List TextRun) : List JValue → List TextRun
  | [] => acc
  | r :: rest =>
    match cleanRun r with
    | some seg => cleanRunsLoop (acc ++ [seg]) rest
    | none => cleanRunsLoop acc rest

/-- Per-record sanitation of WordRepository.load (word_repository.py lines
39-75): word and meaning via `str(d.get(key, ""))`, genre kept only when a
non-empty string, each runs key kept only when the raw value is an array
whose cleaned form is non-empty. -/
def loadRecord (fs : List (String × JValue)) : WordItem :=
  { word := pyStr (jgetD fs "word" (.jstr ""))
  , meaning := pyStr (jgetD fs "meaning" (.jstr ""))
  , genre :=
      match jget fs "genre" with
      | some (.jstr g) => if g ≠ "" then some g else none
      | _ => none
  , word_runs :=
      match jget fs "word_runs" with
      | some (.jarr v) =>
          let cleaned := cleanRunsLoop [] v
          if cleaned ≠ [] then some cleaned else none
      | _ => none
  , meaning_runs :=
      match jget fs "meaning_runs" with
      | some (.jarr v) =>
          let cleaned := cleanRunsLoop [] v
          if cleaned ≠ [] then some cleaned else none
      | _ => none }

/-- The outer record loop of WordRepository.load (word_repository.py lines
34-77): non-dict records are skipped, dict records are sanitized and
appended to `out`. -/
def loadLoop (acc : List WordItem) : List JValue → List WordItem
  | [] => acc
  | d :: rest =>
    match d with
    | .jobj fs => loadLoop (acc ++ [loadRecord fs]) rest
    | _ => loadLoop acc rest

/-- The three ways the words.json document can reach WordRepository.load:
the file is missing, json.load raises (unreadable or invalid JSON), or a
JSON value was parsed. -/
inductive LoadInput where
  | missing : LoadInput
  | unreadable : LoadInput
  | parsed (v : JValue) : LoadInput

/-- WordRepository.load (word_repository.py lines 20-92): missing file and
parse failure both return the empty list (the except branch only renames
the broken file aside); a parsed document is unwrapped from an optional
top-level object with a "words" key, rejected unless the result is an
array, and sanitized record by record. -/
def load (doc : LoadInput) : List WordItem :=
  match doc with
  | .missing => []
  | .unreadable => []
  | .parsed raw =>
    let raw2 :=
      match raw with
      | .jobj fs =>
        match jget fs "words" with
        | some w => w
        | none => .jobj fs
      | other => other
    match raw2 with
    | .jarr ds => loadLoop [] ds
    | _ => []

/-- An optional string-valued dict entry, present only when the option is. -/
def optStrField (k : String) (o : Option String) : List (String × JValue) :=
  match o with
  | some s => [(k, .jstr s)]
  | none => []

/-- An optional bool-valued dict entry, present only when the option is. -/
def optBoolField (k : String) (o : Option Bool) : List (String × JValue) :=
  match o with
  | some b => [(k, .jbool b)]
  | none => []

/-- JSON serialization of one in-memory run dict, as json.dump writes it
inside WordRepository.save: every present key is emitted. -/
def runToJson (r : TextRun) : JValue :=
  .jobj ([("text", .jstr r.text)]
    ++ optStrField "fg" r.fg
    ++ optStrField "bg" r.bg
    ++ optBoolField "bold" r.bold
    ++ optBoolField "italic" r.italic
    ++ optBoolField "underline" r.underline)

/-- An optional runs-valued dict entry, present only when the option is. -/
def optRunsField (k : String) (o : Option (List TextRun)) : List (String × JValue) :=
  match o with
  | some rs => [(k, .jarr (rs.map runToJson))]
  | none => []

/-- The dict fields of one serialized in-memory word entry. -/
def itemFields (it : WordItem) : List (String × JValue) :=
  [("word", .jstr it.word), ("meaning", .jstr it.meaning)]
    ++ optStrField "genre" it.genre
    ++ optRunsField "word_runs" it.word_runs
    ++ optRunsField "meaning_runs" it.meaning_runs

/-- JSON serialization of one in-memory word entry dict, as json.dump
writes it inside WordRepository.save. -/
def itemToJson (it : WordItem) : JValue :=
  .jobj (itemFields it)

/-- WordRepository.save (word_repository.py lines 94-104): the in-memory
entry list is serialized verbatim (runs included) as a JSON array.  The
document written to disk, when read back, parses to exactly this value. -/
def save (words : List WordItem) : JValue :=
  .jarr (words.map itemToJson)

/-- The sanitized form of an in-memory entry: the per-field result of
pushing it once through save and load.  A present-but-empty genre and a
present-but-empty run list are dropped; everything else is kept verbatim. -/
def sanitizeItem (it : WordItem) : WordItem :=
  { word := it.word
  , meaning := it.meaning
  , genre :=
      match it.genre with
      | some g => if g = "" then none else some g
      | none => none
  , word_runs :=
      match it.word_runs with
      | some rs => if rs = [] then none else some rs
      | none => none
  , meaning_runs :=
      match it.meaning_runs with
      | some rs => if rs = [] then none else some rs
      | none => none }

theorem cleanRun_runToJson (r : TextRun) : cleanRun (runToJson r) = some r := by
  rcases r with ⟨t, fg, bg, bo, itl, un⟩
  rcases fg with _ | s1 <;> rcases bg with _ | s2 <;> rcases bo with _ | b1 <;>
    rcases itl with _ | b2 <;> rcases un with _ | b3 <;> rfl

theorem cleanRunsLoop_map_runToJson (acc : List TextRun) (rs : List TextRun) :
    cleanRunsLoop acc (rs.map runToJson) = acc ++ rs := by
  induction rs generalizing acc with
  | nil => simp [cleanRunsLoop]
  | cons r rest ih => simp [cleanRunsLoop, cleanRun_runToJson, ih]

theorem loadRecord_itemFields (it : WordItem) :
    loadRecord (itemFields it) = sanitizeItem it := by
  rcases it with ⟨w, m, g, wr, mr⟩
  rcases g with _ | g <;> rcases wr with _ | wrs <;> rcases mr with _ | mrs <;>
    simp [loadRecord, itemFields, sanitizeItem, jget, jgetD, optStrField, optRunsField,
      cleanRunsLoop_map_runToJson, pyStr, ite_not]

theorem loadLoop_map_itemToJson (acc : List WordItem) (E : List WordItem) :
    loadLoop acc (E.map itemToJson) = acc ++ E.map sanitizeItem := by
  induction E generalizing acc with
  | nil => simp [loadLoop]
  | cons it rest ih => simp [loadLoop, itemToJson, loadRecord_itemFields, ih]

theorem load_save (E : List WordItem) :
    load (.parsed (save E)) = E.map sanitizeItem := by
  simp [load, save, loadLoop_map_itemToJson]

theorem sanitizeItem_idem (it : WordItem) :
    sanitizeItem (sanitizeItem it) = sanitizeItem it := by
  rcases it with ⟨w, m, g, wr, mr⟩
  rcases g with _ | g <;> rcases wr with _ | wrs <;> rcases mr with _ | mrs <;>
    simp only [sanitizeItem] <;> split_ifs <;> simp_all

/-- Spec wording: a value kept only when it is present as a string. -/
def typedStr (o : Option JValue) : Option String :=
  match o with
  | some (.jstr s) => some s
  | _ => none

/-- Spec wording: a value kept only when it is present as a boolean. -/
def typedBool (o : Option JValue) : Option Bool :=
  match o with
  | some (.jbool b) => some b
  | _ => none

/-- Spec wording for one run element: kept only if it is an object with a
string text; the optional attributes are copied only when type-correct. -/
def specRun (r : JValue) : Option TextRun :=
  match r with
  | .jobj fs =>
      (typedStr (jget fs "text")).map (fun t =>
        { text := t
        , fg := typedStr (jget fs "fg")
        , bg := typedStr (jget fs "bg")
        , bold := typedBool (jget fs "bold")
        , italic := typedBool (jget fs "italic")
        , underline := typedBool (jget fs "underline") })
  | _ => none

/-- Spec wording for one runs key: kept only if the raw value is an array,
and omitted entirely when the run list is empty after filtering. -/
def specRunsKey (fs : List (String × JValue)) (k : String) : Option (List TextRun) :=
  match jget fs k with
  | some (.jarr v) =>
      let c := v.filterMap specRun
      if c.isEmpty then none else some c
  | _ => none

/-- Spec wording for one record: word and meaning coerced to strings
defaulting to the empty string, genre kept only if present as a non-empty
string, runs keys as in specRunsKey. -/
def specRecord (fs : List (String × JValue)) : WordItem :=
  { word := pyStr ((jget fs "word").getD (.jstr ""))
  , meaning := pyStr ((jget fs "meaning").getD (.jstr ""))
  , genre := (typedStr (jget fs "genre")).filter (fun g => g != "")
  , word_runs := specRunsKey fs "word_runs"
  , meaning_runs := specRunsKey fs "meaning_runs" }

/-- Spec wording for the whole document: when the root (after unwrapping a
"words" object) is an array, the per-record sanitized sequence of its dict
records; otherwise, and for a missing or unreadable file, the empty
sequence. -/
def specLoad (doc : LoadInput) : List WordItem :=
  match doc with
  | .parsed raw =>
    let raw2 :=
      match raw with
      | .jobj fs =>
        match jget fs "words" with
        | some w => w
        | none => .jobj fs
      | other => other
    match raw2 with
    | .jarr ds =>
        ds.filterMap (fun d =>
          match d with
          | .jobj fs => some (specRecord fs)
          | _ => none)
    | _ => []
  | _ => []

theorem cleanRun_eq_specRun (r : JValue) : cleanRun r = specRun r := by
  cases r with
  | jobj fs =>
      cases h : jget fs "text" with
      | none => simp [cleanRun, specRun, typedStr, h]
      | some v => cases v <;> simp [cleanRun, specRun, typedStr, typedBool, h]
  | jnull => rfl
  | jbool b => rfl
  | jint n => rfl
  | jstr s => rfl
  | jarr xs => rfl

theorem cleanRunsLoop_eq_filterMap (acc : List TextRun) (v : List JValue) :
    cleanRunsLoop acc v = acc ++ v.filterMap cleanRun := by
  induction v generalizing acc with
  | nil => simp [cleanRunsLoop]
  | cons r rest ih =>
      cases h : cleanRun r <;> simp [cleanRunsLoop, h, ih]

theorem ite_ne_nil_some (c : List TextRun) :
    (if c ≠ [] then some c else none) = (if c.isEmpty then none else some c) := by
  cases c <;> simp

theorem loadRecord_eq_specRecord (fs : List (String × JValue)) :
    loadRecord fs = specRecord fs := by
  have hruns : ∀ k, (match jget fs k with
      | some (.jarr v) =>
          let cleaned := cleanRunsLoop [] v
          if cleaned ≠ [] then some cleaned else none
      | _ => none) = specRunsKey fs k := by
    intro k
    cases h : jget fs k with
    | none => simp [specRunsKey, h]
    | some v =>
        cases v with
        | jarr l =>
            simp only [specRunsKey, h, cleanRunsLoop_eq_filterMap, List.nil_append,
              funext cleanRun_eq_specRun]
            exact ite_ne_nil_some _
        | jnull => simp [specRunsKey, h]
        | jbool b => simp [specRunsKey, h]
        | jint n => simp [specRunsKey, h]
        | jstr s => simp [specRunsKey, h]
        | jobj fs2 => simp [specRunsKey, h]
  have hgenre : (match jget fs "genre" with
      | some (.jstr g) => if g ≠ "" then some g else none
      | _ => none) = (typedStr (jget fs "genre")).filter (fun g => g != "") := by
    cases h : jget fs "genre" with
    | none => simp [typedStr, h, Option.filter]
    | some v => cases v <;> simp [typedStr, h, Option.filter, ite_not, bne]
  simp only [loadRecord, specRecord, jgetD, hgenre, hruns]

theorem loadLoop_eq_filterMap (acc : List WordItem) (ds : List JValue) :
    loadLoop acc ds = acc ++ ds.filterMap (fun d =>
      match d with
      | .jobj fs => some (loadRecord fs)
      | _ => none) := by
  induction ds generalizing acc with
  | nil => simp [loadLoop]
  | cons d rest ih => cases d <;> simp [loadLoop, ih]

/-- C3.  WordRepository.load is a total function over arbitrary input
documents: a parsed array root (after unwrapping a "words" object) is
mapped to the per-record sanitized sequence exactly as the specification
describes field by field, and a missing file, unreadable document, or
non-array root yields the empty sequence, never an exception (load is a
total Lean function into plain lists, and both malformed constructors map
to the empty list). -/
theorem load_total_sanitized (doc : LoadInput) :
    load doc = specLoad doc ∧ load .missing = [] ∧ load .unreadable = [] := by
  refine ⟨?_, rfl, rfl⟩
  cases doc with
  | missing => rfl
  | unreadable => rfl
  | parsed raw =>
      simp only [load, specLoad]
      have hrec : (fun d => match d with
          | .jobj fs => some (loadRecord fs)
          | _ => none) = (fun d : JValue => match d with
          | .jobj fs => some (specRecord fs)
          | _ => none) := by
        funext d
        cases d <;> simp [loadRecord_eq_specRecord]
      cases raw <;> simp [loadLoop_eq_filterMap, hrec]

/-- C1.  Round-trip: saving any well-formed entry sequence E with
WordRepository.save and loading the resulting document with
WordRepository.load yields exactly the field-by-field sanitized form of E
(runs included), and a second save/load pass is the identity on that
result, so load after save is a fixpoint after the first sanitation. -/
theorem save_load_round_trip (E : List WordItem) :
    load (.parsed (save E)) = E.map sanitizeItem ∧
    load (.parsed (save (load (.parsed (save E))))) = load (.parsed (save E)) := by
  refine ⟨load_save E, ?_⟩
  rw [load_save E, load_save, List.map_map]
  exact List.map_congr_left (fun it _ => sanitizeItem_idem it)

/-- MainPanel.is_japanese (main_panel.py lines 395-402): a character is
Japanese-script when its code point lies in one of the three listed
ranges. -/
def is_japanese (ch : Char) : Bool :=
  (0x3040 ≤ ch.toNat && ch.toNat ≤ 0x30FF)
    || (0x4E00 ≤ ch.toNat && ch.toNat ≤ 0x9FFF)
    || (0xFF66 ≤ ch.toNat && ch.toNat ≤ 0xFF9D)

/-- C8.  Script classification: is_japanese holds exactly when the code
point lies in U+3040-U+30FF, U+4E00-U+9FFF, or U+FF66-U+FF9D, and in
particular it accepts HIRAGANA A and KATAKANA-HIRAGANA PROLONGED SOUND
MARK and rejects LATIN CAPITAL LETTER A. -/
theorem is_japanese_ranges (c : Char) :
    (is_japanese c = true ↔
      (0x3040 ≤ c.toNat ∧ c.toNat ≤ 0x30FF)
        ∨ (0x4E00 ≤ c.toNat ∧ c.toNat ≤ 0x9FFF)
        ∨ (0xFF66 ≤ c.toNat ∧ c.toNat ≤ 0xFF9D))
    ∧ is_japanese 'あ' = true
    ∧ is_japanese 'A' = false
    ∧ is_japanese 'ー' = true := by
  refine ⟨?_, by decide, by decide, by decide⟩
  simp [is_japanese]
  tauto

/-- Cursor update of MainPanel.next_word (main_panel.py lines 282-285):
with k visible sibling words, an out-of-range cursor (the unset -1
included) restarts at 0, otherwise the cursor advances by one modulo k. -/
def nextCursor (k : Nat) (c : Int) : Int :=
  if c < 0 ∨ (k : Int) ≤ c then 0 else (c + 1) % (k : Int)

/-- Cursor update of MainPanel.prev_word (main_panel.py lines 320-323):
with k visible sibling words, an out-of-range cursor restarts at the last
position, otherwise the cursor retreats by one modulo k. -/
def prevCursor (k : Nat) (c : Int) : Int :=
  if c < 0 ∨ (k : Int) ≤ c then (k : Int) - 1 else (c - 1) % (k : Int)

theorem nextCursor_in_range (k : Nat) (hk : 0 < k) (c : Int) :
    0 ≤ nextCursor k c ∧ nextCursor k c < (k : Int) := by
  unfold nextCursor
  split
  · omega
  · constructor
    · exact Int.emod_nonneg _ (by omega)
    · exact Int.emod_lt_of_pos _ (by omega)

theorem nextCursor_iterate (k : Nat) (c : Int) (h0 : 0 ≤ c) (h1 : c < (k : Int)) :
    ∀ j : Nat, (nextCursor k)^[j] c = (c + j) % (k : Int) := by
  intro j
  induction j with
  | zero => simpa using (Int.emod_eq_of_lt h0 h1).symm
  | succ j ih =>
      rw [Function.iterate_succ_apply', ih]
      have hk : (0 : Int) < (k : Int) := by omega
      have hnn : 0 ≤ (c + j) % (k : Int) := Int.emod_nonneg _ (by omega)
      have hlt : (c + j) % (k : Int) < (k : Int) := Int.emod_lt_of_pos _ hk
      unfold nextCursor
      rw [if_neg (by omega)]
      conv_rhs => rw [show c + (j + 1 : Nat) = (c + j) + 1 by push_cast; ring]
      rw [Int.add_emod (c + j) 1, Int.add_emod ((c + j) % k) 1, Int.emod_emod_of_dvd _ dvd_rfl]

/-- C4.  Navigation advance wraps modulo the group size: from any valid
cursor in a group of k sibling words, next moves to (cursor+1) mod k,
prev moves to (cursor-1) mod k (Python semantics: result in [0,k)), and
k successive next steps return to the starting cursor. -/
theorem cursor_wraparound (k : Nat) (c : Int) (h0 : 0 ≤ c) (h1 : c < (k : Int)) :
    nextCursor k c = (c + 1) % (k : Int)
    ∧ prevCursor k c = (c - 1) % (k : Int)
    ∧ (nextCursor k)^[k] c = c := by
  refine ⟨?_, ?_, ?_⟩
  · unfold nextCursor
    rw [if_neg (by omega)]
  · unfold prevCursor
    rw [if_neg (by omega)]
  · rw [nextCursor_iterate k c h0 h1 k]
    have h2 : (c + (k : Int)) % (k : Int) = c % (k : Int) := by
      conv_lhs => rw [show c + (k : Int) = c + (k : Int) * 1 by ring]
      rw [Int.add_mul_emod_self_left]
    rw [h2, Int.emod_eq_of_lt h0 h1]

/-- Witness for cursor_wraparound at k = 3, c = 1. -/
theorem cursor_wraparound_witness :
    nextCursor 3 1 = (1 + 1) % ((3 : Nat) : Int)
    ∧ prevCursor 3 1 = (1 - 1) % ((3 : Nat) : Int)
    ∧ (nextCursor 3)^[3] 1 = 1 :=
  cursor_wraparound 3 1 (by decide) (by decide)

/-- The style attributes a rendered fragment carries. -/
structure StyleAttrs where
  fg : Option String := none
  bg : Option String := none
  bold : Option Bool := none
  italic : Option Bool := none
  underline : Option Bool := none
deriving DecidableEq, Repr

/-- MainPanel._render_runs (main_panel.py lines 621-652) on an in-memory
run list: one text insertion per run, skipping runs whose text is empty;
the only tag attached is a foreground tag when fg is a non-empty string
(the bold/italic/underline branch is commented out in the source).
Script classification is not consulted. -/
def render_runs : List TextRun → List (String × StyleAttrs)
  | [] => []
  | seg :: rest =>
    if seg.text = "" then render_runs rest
    else
      (seg.text,
        { fg :=
            match seg.fg with
            | some s => if s ≠ "" then some s else none
            | none => none }) :: render_runs rest

/-- The expansion the claim describes: one fragment per non-empty-text
run, in order, carrying all five explicit style attributes verbatim. -/
def specExpandVerbatim (runs : List TextRun) : List (String × StyleAttrs) :=
  runs.filterMap (fun r =>
    if r.text = "" then none
    else some (r.text,
      { fg := r.fg, bg := r.bg, bold := r.bold, italic := r.italic,
        underline := r.underline }))

/-- Counterexample to C5 as stated: on the single run with text "a" and
bold set, the renderer emits a fragment with no style at all, not one
carrying the bold attribute verbatim. -/
theorem render_runs_not_verbatim :
    render_runs [{ text := "a", bold := some true }]
      ≠ specExpandVerbatim [{ text := "a", bold := some true }]
    ∧ render_runs [{ text := "a", bold := some true }]
      = [("a", { : StyleAttrs })] := by
  constructor
  · decide
  · decide

/-- C5 (amended).  Run precedence: with a present run list the renderer
ignores script classification and produces exactly one fragment per
TextRun in input order, skipping empty-text runs, but each fragment
carries only the fg attribute of its run (kept when present and
non-empty); bg, bold, italic and underline are not carried.  In
particular "ab" with runs [(text "ab", fg "red")] renders as the single
fragment ("ab", fg red), not per-character script-split fragments. -/
theorem render_runs_fg_only (runs : List TextRun) :
    render_runs runs = runs.filterMap (fun r =>
      if r.text = "" then none
      else some (r.text, { fg := r.fg.filter (fun s => s != "") : StyleAttrs }))
    ∧ render_runs [{ text := "ab", fg := some "red" }]
      = [("ab", { fg := some "red" : StyleAttrs })] := by
  constructor
  · induction runs with
    | nil => rfl
    | cons seg rest ih =>
        by_cases h : seg.text = ""
        · simp [render_runs, h, ih]
        · cases hf : seg.fg <;>
            simp [render_runs, h, hf, ih, Option.filter, bne, ite_not]
  · decide

/-- Outcome of one WordRepository.save call (word_repository.py lines
94-104), with the success of the underlying file write injected as a
parameter.  The try block either completes the atomic write, or the
raised exception is caught by the bare `except Exception: pass`: nothing
reaches the caller and nothing is logged or reported in either case. -/
structure SaveOutcome where
  fileWritten : Bool
  raisedToCaller : Bool
  surfaced : Bool
deriving DecidableEq, Repr

/-- WordRepository.save, modelled over the injected write result. -/
def saveRun (writeSucceeds : Bool) : SaveOutcome :=
  if writeSucceeds then
    { fileWritten := true, raisedToCaller := false, surfaced := false }
  else
    { fileWritten := false, raisedToCaller := false, surfaced := false }

/-- C7 (code divergence).  On a failing write the exception indeed does
not propagate to the caller, but the failure is not surfaced to any
observability channel either: the except branch is a bare pass, so the
outcome records no report, contradicting the MUST-surface requirement. -/
theorem save_failure_swallowed :
    (saveRun false).raisedToCaller = false
    ∧ (saveRun false).fileWritten = false
    ∧ (saveRun false).surfaced = false
    ∧ (saveRun true).surfaced = false := by
  decide

/-- Grouping key of LeftPanel.rebuild (left_panel.py line 142): the genre
when it is a present, non-empty string, the uncategorized sentinel
otherwise (Python `it.get("genre") or "(未分類)"`). -/
def genreKey (it : WordItem) : String :=
  match it.genre with
  | some g => if g = "" then "(未分類)" else g
  | none => "(未分類)"

/-- Python `grouped.setdefault(key, []).append(idx)` over an
insertion-ordered dict modelled as an association list. -/
def groupedInsert (m : List (String × List Nat)) (k : String) (i : Nat) :
    List (String × List Nat) :=
  match m with
  | [] => [(k, [i])]
  | (k2, v) :: rest =>
      if k2 = k then (k2, v ++ [i]) :: rest
      else (k2, v) :: groupedInsert rest k i

/-- The grouping loop of LeftPanel.rebuild (left_panel.py lines 140-142):
enumerate the items from index i upward, appending each index to the
member list of its genre key. -/
def buildGrouped : List WordItem → Nat → List (String × List Nat) → List (String × List Nat)
  | [], _, m => m
  | it :: rest, i, m => buildGrouped rest (i + 1) (groupedInsert m (genreKey it) i)

/-- Insertion step of sorting the grouped keys. -/
def insertByKey (p : String × List Nat) :
    List (String × List Nat) → List (String × List Nat)
  | [] => [p]
  | q :: rest => if p.1 < q.1 then p :: q :: rest else q :: insertByKey p rest

/-- Python `sorted(grouped.keys())` (left_panel.py line 146), modelled as
an insertion sort of the association list by key. -/
def sortByKey (m : List (String × List Nat)) : List (String × List Nat) :=
  m.foldr insertByKey []

/-- The genre grouping LeftPanel.rebuild derives from the item list: the
member index lists per genre key, in sorted key order. -/
def rebuildGroups (items : List WordItem) : List (String × List Nat) :=
  sortByKey (buildGrouped items 0 [])

/-- Genre key of the item at index i, with a sentinel (never equal to a
real genre key) outside the range. -/
def genreKeyAt (items : List WordItem) (i : Nat) : String :=
  match items[i]? with
  | some it => genreKey it
  | none => ""

theorem groupedInsert_keys (k : String) (i : Nat) :
    ∀ m : List (String × List Nat),
      (groupedInsert m k i).map Prod.fst =
        if k ∈ m.map Prod.fst then m.map Prod.fst else m.map Prod.fst ++ [k] := by
  intro m
  induction m with
  | nil => simp [groupedInsert]
  | cons q rest ih =>
      obtain ⟨k2, v⟩ := q
      by_cases h : k2 = k
      · subst h
        simp [groupedInsert]
      · simp only [groupedInsert, if_neg h, List.map_cons, ih]
        have h2 : (k ∈ k2 :: rest.map Prod.fst) ↔ k ∈ rest.map Prod.fst := by
          rw [List.mem_cons, or_iff_right (fun heq => h heq.symm)]
        by_cases h3 : k ∈ rest.map Prod.fst <;> simp [h2, h3]

theorem groupedInsert_values (gk : Nat → String) (n : Nat) (k : String)
    (hkey : gk n = k) :
    ∀ m : List (String × List Nat),
      (∀ p ∈ m, p.2 = (List.range n).filter (fun j => gk j == p.1)) →
      (m.map Prod.fst).Nodup →
      (k ∉ m.map Prod.fst → (List.range n).filter (fun j => gk j == k) = []) →
      ∀ p ∈ groupedInsert m k n,
        p.2 = (List.range (n + 1)).filter (fun j => gk j == p.1) := by
  intro m
  induction m with
  | nil =>
      intro _ _ hempty p hp
      simp only [groupedInsert, List.mem_singleton] at hp
      subst hp
      simp [List.range_succ, List.filter_append, hempty (by simp), hkey]
  | cons q rest ih =>
      intro hval hnd hempty p hp
      obtain ⟨k2, v⟩ := q
      by_cases h : k2 = k
      · subst h
        simp only [groupedInsert, if_pos rfl] at hp
        rcases List.mem_cons.mp hp with hp | hp
        · subst hp
          have hv := hval (k2, v) (by simp)
          simp only at hv
          simp [List.range_succ, List.filter_append, hkey, ← hv]
        · have hv := hval p (List.mem_cons_of_mem _ hp)
          have hne : p.1 ≠ k2 := by
            intro heq
            rw [List.map_cons, List.nodup_cons] at hnd
            have hm : p.1 ∈ rest.map Prod.fst := List.mem_map_of_mem Prod.fst hp
            exact hnd.1 (heq ▸ hm)
          rw [hv]
          simp [List.range_succ, List.filter_append, hkey]
          exact fun heq => absurd heq.symm hne
      · simp only [groupedInsert, if_neg h] at hp
        rcases List.mem_cons.mp hp with hp | hp
        · subst hp
          have hv := hval (k2, v) (by simp)
          simp only at hv
          rw [hv]
          simp [List.range_succ, List.filter_append, hkey]
          exact fun heq => h heq.symm
        · refine ih (fun q hq => hval q (List.mem_cons_of_mem _ hq))
            (by rw [List.map_cons, List.nodup_cons] at hnd; exact hnd.2) ?_ p hp
          intro hk
          apply hempty
          rw [List.map_cons, List.mem_cons]
          rintro (heq | hmem)
          · exact h heq.symm
          · exact hk hmem

/-- Invariant of the grouping loop after the first n indices have been
processed: every member list is exactly the indices below n carrying that
key, keys are unrepeated, and every key not yet present has no index
below n. -/
def GroupsInv (gk : Nat → String) (n : Nat) (m : List (String × List Nat)) : Prop :=
  (∀ p ∈ m, p.2 = (List.range n).filter (fun j => gk j == p.1))
  ∧ (m.map Prod.fst).Nodup
  ∧ (∀ k, k ∉ m.map Prod.fst → (List.range n).filter (fun j => gk j == k) = [])

theorem groupedInsert_inv (gk : Nat → String) (n : Nat) (k : String)
    (hkey : gk n = k) (m : List (String × List Nat)) (h : GroupsInv gk n m) :
    GroupsInv gk (n + 1) (groupedInsert m k n) := by
  obtain ⟨h1, h2, h3⟩ := h
  refine ⟨groupedInsert_values gk n k hkey m h1 h2 (h3 k), ?_, ?_⟩
  · rw [groupedInsert_keys]
    split
    · exact h2
    · rename_i hk
      rw [List.nodup_append]
      refine ⟨h2, List.nodup_singleton k, ?_⟩
      intro a ha hb
      rw [List.mem_singleton] at hb
      subst hb
      exact hk ha
  · intro k2 hk2
    rw [groupedInsert_keys] at hk2
    have hk2m : k2 ∉ m.map Prod.fst ∧ k2 ≠ k := by
      by_cases hmem : k ∈ m.map Prod.fst
      · rw [if_pos hmem] at hk2
        exact ⟨hk2, fun he => hk2 (he ▸ hmem)⟩
      · rw [if_neg hmem] at hk2
        rw [List.mem_append, List.mem_singleton] at hk2
        push_neg at hk2
        exact hk2
    rw [List.range_succ, List.filter_append, h3 k2 hk2m.1]
    simp [hkey]
    exact fun he => hk2m.2 he.symm

theorem buildGrouped_inv (full : List WordItem) :
    ∀ (items : List WordItem) (n : Nat) (m : List (String × List Nat)),
      items = full.drop n → n + items.length = full.length →
      GroupsInv (genreKeyAt full) n m →
      GroupsInv (genreKeyAt full) full.length (buildGrouped items n m) := by
  intro items
  induction items with
  | nil =>
      intro n m hdrop hlen h
      simp only [List.length_nil, Nat.add_zero] at hlen
      rw [buildGrouped, ← hlen]
      exact h
  | cons it rest ih =>
      intro n m hdrop hlen h
      have hget : full[n]? = some it := by
        have h0 : (full.drop n)[0]? = some it := by rw [← hdrop]; simp
        rw [List.getElem?_drop, Nat.add_zero] at h0
        exact h0
      have hrest : rest = full.drop (n + 1) := by
        rw [← List.tail_drop full n, ← hdrop]
        rfl
      have hkeyn : genreKeyAt full n = genreKey it := by
        simp [genreKeyAt, hget]
      rw [buildGrouped]
      exact ih (n + 1) (groupedInsert m (genreKey it) n)
        (by rw [hrest])
        (by simp only [List.length_cons] at hlen; omega)
        (groupedInsert_inv _ n _ hkeyn m h)

theorem insertByKey_perm (p : String × List Nat) (l : List (String × List Nat)) :
    (insertByKey p l).Perm (p :: l) := by
  induction l with
  | nil => exact List.Perm.refl _
  | cons q rest ih =>
      by_cases h : p.1 < q.1
      · rw [insertByKey, if_pos h]
      · rw [insertByKey, if_neg h]
        exact (ih.cons q).trans (List.Perm.swap p q rest)

theorem sortByKey_perm (m : List (String × List Nat)) : (sortByKey m).Perm m := by
  induction m with
  | nil => exact List.Perm.refl _
  | cons q rest ih =>
      have : sortByKey (q :: rest) = insertByKey q (sortByKey rest) := rfl
      rw [this]
      exact (insertByKey_perm q (sortByKey rest)).trans (ih.cons q)

theorem count_range_ite (i N : Nat) :
    (List.range N).count i = if i < N then 1 else 0 := by
  by_cases h : i < N
  · rw [if_pos h]
    exact List.count_eq_one_of_mem (List.nodup_range N) (List.mem_range.mpr h)
  · rw [if_neg h]
    rw [List.count_eq_zero]
    simpa using h

theorem count_flatMap_groups (gk : Nat → String) (N : Nat) (i : Nat) :
    ∀ (m : List (String × List Nat)),
      (∀ p ∈ m, p.2 = (List.range N).filter (fun j => gk j == p.1)) →
      (m.map Prod.fst).Nodup →
      (m.flatMap Prod.snd).count i
        = if i < N ∧ gk i ∈ m.map Prod.fst then 1 else 0 := by
  intro m
  induction m with
  | nil => simp
  | cons q rest ih =>
      intro hval hnd
      obtain ⟨k, v⟩ := q
      rw [List.map_cons, List.nodup_cons] at hnd
      have hv := hval (k, v) (by simp)
      simp only at hv
      have hcv : v.count i = if i < N ∧ gk i = k then 1 else 0 := by
        rw [hv]
        by_cases hik : gk i = k
        · rw [List.count_filter (by simpa using hik), count_range_ite]
          simp [hik]
        · have : i ∉ (List.range N).filter (fun j => gk j == k) := by
            intro hmem
            rw [List.mem_filter] at hmem
            exact hik (by simpa using hmem.2)
          rw [List.count_eq_zero.mpr this]
          simp [hik]
      have hrest := ih (fun p hp => hval p (List.mem_cons_of_mem _ hp)) hnd.2
      rw [List.flatMap_cons, List.count_append, hcv, hrest]
      simp only [List.map_cons]
      by_cases h1 : i < N
      · by_cases h2 : gk i = k
        · have h3 : gk i ∉ rest.map Prod.fst := by rw [h2]; exact hnd.1
          rw [if_pos ⟨h1, h2⟩, if_neg (fun hc => h3 hc.2),
            if_pos ⟨h1, List.mem_cons.mpr (Or.inl h2)⟩]
        · have hcond : (i < N ∧ gk i ∈ k :: List.map Prod.fst rest)
              ↔ (i < N ∧ gk i ∈ List.map Prod.fst rest) := by
            rw [List.mem_cons]
            constructor
            · rintro ⟨ha, hb | hb⟩
              · exact absurd hb h2
              · exact ⟨ha, hb⟩
            · rintro ⟨ha, hb⟩
              exact ⟨ha, Or.inr hb⟩
          rw [if_neg (fun hc => h2 hc.2), Nat.zero_add, if_congr hcond rfl rfl]
      · simp [h1]

/-- C2.  Partition invariant: for every item list and the genre grouping
rebuilt over it, every index below N appears in exactly one member list
and indices outside the list in none (the count over the concatenation of
all member lists is one exactly below N), and every group contains only
in-range indices of its own genre key (absent or empty genre mapping to
the uncategorized key) listed in increasing index order, so the relative
input order is preserved within each group. -/
theorem rebuild_partition (items : List WordItem) (i : Nat) :
    ((rebuildGroups items).flatMap Prod.snd).count i
      = (if i < items.length then 1 else 0)
    ∧ ((rebuildGroups items).all (fun p =>
        decide (List.Pairwise (· < ·) p.2)
        && p.2.all (fun j => decide (j < items.length ∧ genreKeyAt items j = p.1)))
      = true) := by
  have hinv0 : GroupsInv (genreKeyAt items) 0 [] := by
    refine ⟨by simp, by simp, by simp⟩
  have hinv := buildGrouped_inv items items 0 [] (by simp) (by simp) hinv0
  obtain ⟨hval, hnd, hcomp⟩ := hinv
  have hperm := sortByKey_perm (buildGrouped items 0 [])
  have hvalG : ∀ p ∈ rebuildGroups items,
      p.2 = (List.range items.length).filter (fun j => genreKeyAt items j == p.1) :=
    fun p hp => hval p (hperm.mem_iff.mp hp)
  have hmapperm : ((rebuildGroups items).map Prod.fst).Perm
      ((buildGrouped items 0 []).map Prod.fst) := hperm.map _
  have hndG : ((rebuildGroups items).map Prod.fst).Nodup :=
    (List.Perm.nodup_iff hmapperm).mpr hnd
  constructor
  · rw [count_flatMap_groups (genreKeyAt items) items.length i
      (rebuildGroups items) hvalG hndG]
    by_cases h1 : i < items.length
    · have hmem : genreKeyAt items i ∈ (buildGrouped items 0 []).map Prod.fst := by
        by_contra hno
        have hempty := hcomp _ hno
        have hi : i ∈ (List.range items.length).filter
            (fun j => genreKeyAt items j == genreKeyAt items i) := by
          rw [List.mem_filter]
          exact ⟨List.mem_range.mpr h1, by simp⟩
        rw [hempty] at hi
        exact absurd hi (List.not_mem_nil i)
      simp [h1, hmapperm.mem_iff.mpr hmem]
    · simp [h1]
  · rw [List.all_eq_true]
    intro p hp
    have hv := hvalG p hp
    simp only [Bool.and_eq_true, decide_eq_true_eq, List.all_eq_true]
    constructor
    · rw [hv]
      exact List.Pairwise.sublist (List.filter_sublist _) (List.pairwise_lt_range _)
    · intro j hj
      rw [hv, List.mem_filter] at hj
      exact ⟨List.mem_range.mp hj.1, by simpa using hj.2⟩

/-- Ordered-set insertion: the effect of adding one integer to the
strictly descending list representing Python `sorted(set(...),
reverse=True)`. -/
def insertDesc (x : Int) : List Int → List Int
  | [] => [x]
  | y :: rest =>
      if y < x then x :: y :: rest
      else if x = y then y :: rest
      else y :: insertDesc x rest

/-- Python `sorted(set(idxs), reverse=True)` (word_list_window.py line
128, test.py line 67): the distinct listed indices in strictly descending
order. -/
def sortedDescSet (idxs : List Int) : List Int :=
  idxs.foldr insertDesc []

/-- One loop iteration of the delete handler: Python
`if 0 <= idx < len(words): del words[idx]`, no effect otherwise. -/
def pydel (l : List WordItem) (i : Int) : List WordItem :=
  if 0 ≤ i ∧ i < l.length then l.eraseIdx i.toNat else l

/-- WordListWindow._on_delete and WordRepository.delete_indices
(word_list_window.py lines 124-133, test.py lines 66-70): delete the
selected indices, deduplicated, in descending order, ignoring any index
out of range. -/
def delete_indices (l : List WordItem) (idxs : List Int) : List WordItem :=
  (sortedDescSet idxs).foldl pydel l

/-- The claim-side description of deletion: walk the list with its
positions and drop exactly the positions that are listed. -/
def removeListed (idxs : List Int) : List WordItem → Nat → List WordItem
  | [], _ => []
  | a :: t, pos =>
      if (pos : Int) ∈ idxs then removeListed idxs t (pos + 1)
      else a :: removeListed idxs t (pos + 1)

/-- The original collection with the set of listed positions removed. -/
def keepUnlisted (l : List WordItem) (idxs : List Int) : List WordItem :=
  removeListed idxs l 0

theorem mem_insertDesc (x a : Int) :
    ∀ l : List Int, a ∈ insertDesc x l ↔ a = x ∨ a ∈ l := by
  intro l
  induction l with
  | nil => simp [insertDesc]
  | cons y rest ih =>
      rw [insertDesc]
      split
      · simp
      · split
        · rename_i hxy
          subst hxy
          simp [List.mem_cons]
        · simp [List.mem_cons, ih]
          tauto

theorem pairwise_insertDesc (x : Int) :
    ∀ l : List Int, List.Pairwise (· > ·) l →
      List.Pairwise (· > ·) (insertDesc x l) := by
  intro l
  induction l with
  | nil => simp [insertDesc]
  | cons y rest ih =>
      intro hp
      rw [List.pairwise_cons] at hp
      rw [insertDesc]
      split
      · rename_i hyx
        rw [List.pairwise_cons]
        refine ⟨?_, List.pairwise_cons.mpr hp⟩
        intro b hb
        rcases List.mem_cons.mp hb with hb | hb
        · omega
        · have := hp.1 b hb
          omega
      · split
        · exact List.pairwise_cons.mpr hp
        · rename_i hyx hxy
          rw [List.pairwise_cons]
          constructor
          · intro b hb
            rcases (mem_insertDesc x b rest).mp hb with hb | hb
            · omega
            · exact hp.1 b hb
          · exact ih hp.2

theorem sortedDescSet_pairwise (idxs : List Int) :
    List.Pairwise (· > ·) (sortedDescSet idxs) := by
  induction idxs with
  | nil => simp [sortedDescSet]
  | cons x rest ih => exact pairwise_insertDesc x _ ih

theorem mem_sortedDescSet (a : Int) (idxs : List Int) :
    a ∈ sortedDescSet idxs ↔ a ∈ idxs := by
  induction idxs with
  | nil => simp [sortedDescSet]
  | cons x rest ih =>
      have : sortedDescSet (x :: rest) = insertDesc x (sortedDescSet rest) := rfl
      rw [this, mem_insertDesc, ih, List.mem_cons]

theorem removeListed_append (S : List Int) (xs ys : List WordItem) :
    ∀ pos : Nat, removeListed S (xs ++ ys) pos
      = removeListed S xs pos ++ removeListed S ys (pos + xs.length) := by
  induction xs with
  | nil => intro pos; simp [removeListed]
  | cons a t ih =>
      intro pos
      rw [List.cons_append, removeListed, removeListed]
      split
      · rw [ih (pos + 1)]
        simp [Nat.add_assoc, Nat.add_comm 1 t.length]
      · rw [ih (pos + 1)]
        simp [Nat.add_assoc, Nat.add_comm 1 t.length]

theorem removeListed_of_not_mem (S : List Int) (ys : List WordItem) :
    ∀ pos : Nat, (∀ j : Nat, pos ≤ j → (j : Int) ∉ S) →
      removeListed S ys pos = ys := by
  induction ys with
  | nil => intro pos _; rfl
  | cons a t ih =>
      intro pos h
      rw [removeListed, if_neg (h pos Nat.le.refl)]
      rw [ih (pos + 1) (fun j hj => h j (by omega))]

theorem removeListed_congr (S S2 : List Int) (l : List WordItem) :
    ∀ pos : Nat,
      (∀ j : Nat, pos ≤ j → j < pos + l.length → ((j : Int) ∈ S ↔ (j : Int) ∈ S2)) →
      removeListed S l pos = removeListed S2 l pos := by
  induction l with
  | nil => intro pos _; rfl
  | cons a t ih =>
      intro pos h
      have h0 : ((pos : Int) ∈ S ↔ (pos : Int) ∈ S2) :=
        h pos Nat.le.refl (by simp)
      have ht := ih (pos + 1) (fun j hj1 hj2 => h j (by omega) (by simp at hj2 ⊢; omega))
      rw [removeListed, removeListed, ht]
      by_cases hm : (pos : Int) ∈ S
      · rw [if_pos hm, if_pos (h0.mp hm)]
      · rw [if_neg hm, if_neg (fun hc => hm (h0.mpr hc))]

theorem foldl_pydel_eq_removeListed :
    ∀ ds : List Int, List.Pairwise (· > ·) ds →
      ∀ l : List WordItem, List.foldl pydel l ds = removeListed ds l 0 := by
  intro ds
  induction ds with
  | nil =>
      intro _ l
      rw [List.foldl_nil, removeListed_of_not_mem _ _ 0 (by simp)]
  | cons d rest ih =>
      intro hp l
      rw [List.pairwise_cons] at hp
      rw [List.foldl_cons]
      rw [ih hp.2 (pydel l d)]
      by_cases hin : 0 ≤ d ∧ d < (l.length : Int)
      · have hn : d.toNat < l.length := by omega
        have hdn : (d.toNat : Int) = d := Int.toNat_of_nonneg hin.1
        have hsplit : l = l.take d.toNat ++ l[d.toNat] :: l.drop (d.toNat + 1) := by
          conv_lhs => rw [← List.take_append_drop d.toNat l]
          rw [List.drop_eq_getElem_cons hn]
        have htlen : (l.take d.toNat).length = d.toNat := by
          simp [List.length_take]
          omega
        have herase : pydel l d = l.take d.toNat ++ l.drop (d.toNat + 1) := by
          rw [pydel, if_pos (by exact ⟨hin.1, hin.2⟩), List.eraseIdx_eq_take_drop_succ]
        rw [herase, removeListed_append, htlen]
        conv_rhs => rw [hsplit]
        rw [removeListed_append, htlen]
        have hfirst : removeListed rest (l.take d.toNat) 0
            = removeListed (d :: rest) (l.take d.toNat) 0 := by
          apply removeListed_congr
          intro j _ hjlt
          rw [htlen] at hjlt
          rw [List.mem_cons]
          constructor
          · exact Or.inr
          · rintro (hj | hj)
            · omega
            · exact hj
        have hkeep1 : removeListed rest (l.drop (d.toNat + 1)) (0 + d.toNat)
            = l.drop (d.toNat + 1) := by
          apply removeListed_of_not_mem
          intro j hj hmem
          have hgt := hp.1 _ hmem
          omega
        have hkeep2 : removeListed (d :: rest) (l[d.toNat] :: l.drop (d.toNat + 1))
            (0 + d.toNat) = l.drop (d.toNat + 1) := by
          rw [removeListed, if_pos (List.mem_cons.mpr (Or.inl (by omega)))]
          apply removeListed_of_not_mem
          intro j hj hmem
          rcases List.mem_cons.mp hmem with hmem | hmem
          · omega
          · have hgt := hp.1 _ hmem
            omega
        rw [hkeep1, hkeep2, hfirst]
      · rw [pydel, if_neg hin]
        apply removeListed_congr
        intro j _ hjlt
        rw [List.mem_cons]
        constructor
        · exact Or.inr
        · rintro (hj | hj)
          · simp at hjlt
            omega
          · exact hj

theorem delete_indices_eq_keepUnlisted (l : List WordItem) (S : List Int) :
    delete_indices l S = keepUnlisted l S := by
  rw [delete_indices, keepUnlisted,
    foldl_pydel_eq_removeListed _ (sortedDescSet_pairwise S)]
  apply removeListed_congr
  intro j _ _
  rw [mem_sortedDescSet]

/-- C9.  Delete tolerates bad indices: for every index batch over a
collection, the result is exactly the original collection with the listed
in-range positions removed (the code processes the distinct indices in
descending order), and indices outside the range have no effect at all:
restricting the batch to its in-range elements gives the same result, so
a bad index never aborts the rest of the batch. -/
theorem delete_tolerates_bad_indices (l : List WordItem) (idxs : List Int) :
    delete_indices l idxs = keepUnlisted l idxs
    ∧ delete_indices l (idxs.filter (fun i => decide (0 ≤ i ∧ i < (l.length : Int))))
      = delete_indices l idxs := by
  refine ⟨delete_indices_eq_keepUnlisted l idxs, ?_⟩
  rw [delete_indices_eq_keepUnlisted, delete_indices_eq_keepUnlisted,
    keepUnlisted, keepUnlisted]
  apply removeListed_congr
  intro j _ hjlt
  rw [List.mem_filter]
  simp only [decide_eq_true_eq]
  constructor
  · rintro ⟨hm, _⟩
    exact hm
  · intro hm
    refine ⟨hm, ?_⟩
    simp only [Nat.zero_add] at hjlt
    constructor
    · omega
    · omega

/-- C10.  Delete de-duplicates its index batch: the result only depends
on the set of listed indices (deduplicating the batch changes nothing and
the result is the original minus the distinct in-range listed positions),
and in particular deleting [2,2] from a four-element collection removes
exactly one entry. -/
theorem delete_deduplicates (l : List WordItem) (idxs : List Int)
    (a b c d : WordItem) :
    delete_indices l idxs = delete_indices l idxs.dedup
    ∧ delete_indices l idxs = keepUnlisted l idxs.dedup
    ∧ delete_indices [a, b, c, d] [2, 2] = [a, b, d] := by
  have h2 : delete_indices l idxs = keepUnlisted l idxs.dedup := by
    rw [delete_indices_eq_keepUnlisted, keepUnlisted, keepUnlisted]
    apply removeListed_congr
    intro j _ _
    rw [List.mem_dedup]
  refine ⟨?_, h2, ?_⟩
  · rw [h2, delete_indices_eq_keepUnlisted]
  · rfl

/-- An update record handed to the edit handler by the dialog: any subset
of the five entry keys may be present. -/
structure UpdateRec where
  word : Option String := none
  meaning : Option String := none
  genre : Option String := none
  word_runs : Option (List TextRun) := none
  meaning_runs : Option (List TextRun) := none
deriving DecidableEq, Repr

/-- Default entry used to express in-range indexing without a proof
argument; the edit handler only reads the entry under its range guard. -/
def dfltItem : WordItem := { word := "", meaning := "" }

/-- The merge of WordListWindow._on_edit / MainPanel._on_tree_edit_word
(word_list_window.py lines 99-116, main_panel.py lines 452-468): word,
meaning and genre are taken from the update when present and default to
the prior values (genre defaulting to the empty string when the prior
entry had none), and each runs key is taken from the update when present
there, otherwise kept from the prior entry when present there. -/
def mergeItem (cur : WordItem) (upd : UpdateRec) : WordItem :=
  { word := upd.word.getD cur.word
  , meaning := upd.meaning.getD cur.meaning
  , genre := some (upd.genre.getD (cur.genre.getD ""))
  , word_runs :=
      match upd.word_runs with
      | some l => some l
      | none => cur.word_runs
  , meaning_runs :=
      match upd.meaning_runs with
      | some l => some l
      | none => cur.meaning_runs }

/-- The edit handler over the stored list (word_list_window.py lines
90-121): an out-of-range index is rejected up front, otherwise the entry
at the index is replaced by the merge of itself with the update. -/
def editAt (words : List WordItem) (idx : Int) (upd : UpdateRec) : List WordItem :=
  if 0 ≤ idx ∧ idx < (words.length : Int) then
    words.set idx.toNat (mergeItem (words.getD idx.toNat dfltItem) upd)
  else words

theorem eraseIdx_set_self (l : List WordItem) (n : Nat) (a : WordItem) :
    (l.set n a).eraseIdx n = l.eraseIdx n := by
  induction l generalizing n with
  | nil => rfl
  | cons h t ih =>
      cases n with
      | zero => rfl
      | succ n =>
          simp only [List.set_cons_succ, List.eraseIdx_cons_succ, ih]

theorem mergeItem_fieldwise (cur : WordItem) (u : UpdateRec) :
    mergeItem cur u =
      { word := u.word.getD cur.word
      , meaning := u.meaning.getD cur.meaning
      , genre := some (u.genre.getD (cur.genre.getD ""))
      , word_runs := u.word_runs.or cur.word_runs
      , meaning_runs := u.meaning_runs.or cur.meaning_runs } := by
  rcases u with ⟨w, m, g, wr, mr⟩
  cases wr <;> cases mr <;> rfl

/-- C6.  Edit retains omitted fields: for every valid index and every
update record, the edit replaces exactly the entry at the index (the rest
of the list is untouched) with the field-wise merge in which word,
meaning and genre fall back to the prior values when absent from the
update (genre re-stored explicitly, the empty string standing for a
prior absent genre, the same genre classification) and each run list is
taken from the update only when provided there, being kept from the
prior entry otherwise; in particular an update providing no word_runs -
whatever else it provides, meaning_runs included - leaves the stored
word_runs unchanged rather than clearing them, and symmetrically for
meaning_runs. -/
theorem edit_retains_omitted (words : List WordItem) (idx : Int) (upd : UpdateRec)
    (h0 : 0 ≤ idx) (h1 : idx < (words.length : Int)) :
    editAt words idx upd = words.set idx.toNat
      { word := upd.word.getD ((words.getD idx.toNat dfltItem).word)
      , meaning := upd.meaning.getD ((words.getD idx.toNat dfltItem).meaning)
      , genre := some (upd.genre.getD (((words.getD idx.toNat dfltItem).genre).getD ""))
      , word_runs := upd.word_runs.or ((words.getD idx.toNat dfltItem).word_runs)
      , meaning_runs := upd.meaning_runs.or ((words.getD idx.toNat dfltItem).meaning_runs) }
    ∧ ((editAt words idx { upd with word_runs := none }).getD idx.toNat
        dfltItem).word_runs = (words.getD idx.toNat dfltItem).word_runs
    ∧ ((editAt words idx { upd with meaning_runs := none }).getD idx.toNat
        dfltItem).meaning_runs = (words.getD idx.toNat dfltItem).meaning_runs
    ∧ (editAt words idx upd).eraseIdx idx.toNat = words.eraseIdx idx.toNat := by
  have hcond : 0 ≤ idx ∧ idx < (words.length : Int) := ⟨h0, h1⟩
  have hn : idx.toNat < words.length := by omega
  refine ⟨?_, ?_, ?_, ?_⟩
  · rw [editAt, if_pos hcond, mergeItem_fieldwise]
  · rw [editAt, if_pos hcond, List.getD_eq_getElem?_getD, List.getElem?_set_self hn]
    rfl
  · rw [editAt, if_pos hcond, List.getD_eq_getElem?_getD, List.getElem?_set_self hn]
    rfl
  · rw [editAt, if_pos hcond, eraseIdx_set_self]

/-- Witness entry for the C6 theorem: the blue-styled run on the word. -/
def editExampleItem : WordItem :=
  { word := "x", meaning := "m", genre := some "g"
  , word_runs := some [{ text := "x", fg := some "blue" }] }

/-- Witness update for the C6 theorem: meaning and meaning_runs are
provided, word_runs is omitted. -/
def editExampleUpd : UpdateRec :=
  { meaning := some "y", meaning_runs := some [{ text := "y" }] }

/-- Witness for edit_retains_omitted at the one-entry list, index 0 and
an update that provides meaning_runs while omitting word_runs. -/
theorem edit_retains_omitted_witness :
    editAt [editExampleItem] 0 editExampleUpd = [editExampleItem].set (0 : Int).toNat
      { word := editExampleUpd.word.getD
          (([editExampleItem].getD (0 : Int).toNat dfltItem).word)
      , meaning := editExampleUpd.meaning.getD
          (([editExampleItem].getD (0 : Int).toNat dfltItem).meaning)
      , genre := some (editExampleUpd.genre.getD
          ((([editExampleItem].getD (0 : Int).toNat dfltItem).genre).getD ""))
      , word_runs := editExampleUpd.word_runs.or
          (([editExampleItem].getD (0 : Int).toNat dfltItem).word_runs)
      , meaning_runs := editExampleUpd.meaning_runs.or
          (([editExampleItem].getD (0 : Int).toNat dfltItem).meaning_runs) }
    ∧ ((editAt [editExampleItem] 0 { editExampleUpd with word_runs := none }).getD
        (0 : Int).toNat dfltItem).word_runs
      = ([editExampleItem].getD (0 : Int).toNat dfltItem).word_runs
    ∧ ((editAt [editExampleItem] 0 { editExampleUpd with meaning_runs := none }).getD
        (0 : Int).toNat dfltItem).meaning_runs
      = ([editExampleItem].getD (0 : Int).toNat dfltItem).meaning_runs
    ∧ (editAt [editExampleItem] 0 editExampleUpd).eraseIdx (0 : Int).toNat
      = [editExampleItem].eraseIdx (0 : Int).toNat :=
  edit_retains_omitted [editExampleItem] 0 editExampleUpd (by decide)
    (by simp [editExampleItem])

end Tango
